import Mathlib

/-!
Verification development for the incremental vector-index update pipeline
(`Task6/update_index.py`, `Task6/build_index.py`, `Task6/scheduler.py`).

Text is modelled as `List Char`; file systems as lists of `SrcFile` records;
the external content-hash function (`hashlib.md5`) and the injected text
splitter are parameters of the definitions that use them.
-/

set_option maxRecDepth 4000

/-- Whitespace test matching Python `str.strip`'s default character class
(space, tab, newline, carriage return, vertical tab, form feed). -/
def isSpaceChar (c : Char) : Bool :=
  c = ' ' ∨ c = '\t' ∨ c = '\n' ∨ c = '\r' ∨ c = Char.ofNat 11 ∨ c = Char.ofNat 12

/-- Python `str.strip()`: drop whitespace from both ends. -/
def trim (l : List Char) : List Char :=
  ((l.dropWhile isSpaceChar).reverse.dropWhile isSpaceChar).reverse

/-- Decimal digit character, as produced by Python string formatting. -/
def digitChar (d : Nat) : Char := Char.ofNat (48 + d)

/-- Decimal rendering of a natural number (the `{i}` part of the f-strings
`f"{file_path.stem}_{i}"` / `f"{filename}_{i}"`), with a structural fuel so
the kernel can evaluate it. -/
def natDigitsFuel : Nat → Nat → List Char
  | 0, _ => []
  | fuel + 1, n =>
    if n < 10 then [digitChar n]
    else natDigitsFuel fuel (n / 10) ++ [digitChar (n % 10)]

/-- Decimal rendering of a natural number. -/
def natDigits (n : Nat) : List Char := natDigitsFuel (n + 1) n

/-- Decimal parsing, used only to prove `natDigits` injective. -/
def unDigits (l : List Char) : Nat :=
  l.foldl (fun acc c => acc * 10 + (c.toNat - 48)) 0

/-- Index of the suffix dot of a path name, as in Python `pathlib`:
the last `'.'` that is neither the first nor the last character. -/
def dotSplitIdx (name : List Char) : Option Nat :=
  ((List.range name.length).filter
    (fun i => decide (name.get? i = some '.' ∧ 0 < i ∧ i + 1 < name.length))).getLast?

/-- Python `Path(...).stem`: the file name without its final suffix. -/
def pathStem (name : List Char) : List Char :=
  match dotSplitIdx name with
  | none => name
  | some i => name.take i

/-- One tagged fragment (`langchain` `Document` restricted to the metadata
fields the claims are about): fragment text, `chunk_id`, `chunk_index`,
`total_chunks`. -/
structure Chunk where
  content : List Char
  chunkId : List Char
  chunkIndex : Nat
  totalChunks : Nat
deriving DecidableEq, Repr

/-- The `for i, chunk in enumerate(chunks)` tagging loops of
`AutoUpdateManager.process_file` and `KnowledgeBaseIndexer.split_documents`:
keep a chunk iff its trimmed length is at least `minSize`, attaching
`chunk_id = f"{base}_{i}"`, `chunk_index = i`, `total_chunks = total`
(`total` is the pre-filter chunk count, `i` the pre-filter index). -/
def tagChunks (base : List Char) (minSize total : Nat) : Nat → List (List Char) → List Chunk
  | _, [] => []
  | i, c :: rest =>
    if minSize ≤ (trim c).length then
      ⟨c, base ++ '_' :: natDigits i, i, total⟩ :: tagChunks base minSize total (i + 1) rest
    else
      tagChunks base minSize total (i + 1) rest

/-- One source file as seen by one run: cache key (path relative to the
script directory), file name, and content — `none` when reading the file
raises an I/O error. -/
structure SrcFile where
  key : String
  filename : List Char
  content : Option (List Char)
deriving DecidableEq, Repr

/-- `AutoUpdateManager._calculate_file_hash`: the md5 hex digest (the
external `hashFn`) of the file's bytes, or `""` when reading raises
(the exception is caught and logged). -/
def calculate_file_hash (hashFn : List Char → String) (f : SrcFile) : String :=
  match f.content with
  | none => ""
  | some c => hashFn c

/-- The in-memory `processed_files_cache`: a Python dict from file key to
fingerprint, as an association list in insertion order. -/
abbrev Cache := List (String × String)

/-- Python `dict` lookup (`cache[key]` / `key in cache`). -/
def cacheLookup : Cache → String → Option String
  | [], _ => none
  | (k, v) :: rest, key => if k = key then some v else cacheLookup rest key

/-- Python `dict` assignment `cache[key] = val`: overwrite in place,
append when the key is new. -/
def cacheUpdate : Cache → String → String → Cache
  | [], key, val => [(key, val)]
  | (k, v) :: rest, key, val =>
    if k = key then (k, val) :: rest else (k, v) :: cacheUpdate rest key val

/-- The per-file body of `AutoUpdateManager.scan_for_new_files`: hash the
file and select it iff its key is absent from the cache or the stored
fingerprint differs. -/
def scanEntry (hashFn : List Char → String) (cache : Cache) (f : SrcFile) :
    Option (SrcFile × String) :=
  let h := calculate_file_hash hashFn f
  match cacheLookup cache f.key with
  | none => some (f, h)
  | some h0 => if h0 = h then none else some (f, h)

/-- `AutoUpdateManager.scan_for_new_files`: the selected (file, hash) pairs,
in scan order. -/
def scan_for_new_files (hashFn : List Char → String) (cache : Cache)
    (files : List SrcFile) : List (SrcFile × String) :=
  files.filterMap (scanEntry hashFn cache)

/-- `AutoUpdateManager.process_file`: read the file (an I/O failure is
caught and yields `[]`), strip it, return `[]` if empty, else split via the
injected text splitter and tag/filter the chunks with
`base = file_path.stem` and the configured `min_chunk_size`. -/
def process_file (sp : List Char → List (List Char)) (minSize : Nat) (f : SrcFile) :
    List Chunk :=
  match f.content with
  | none => []
  | some raw =>
    let content := trim raw
    if content = [] then []
    else
      let chunks := sp content
      tagChunks (pathStem f.filename) minSize chunks.length 0 chunks

/-- The pre-filter fragment list of a file: what `self.text_splitter
.split_documents([document])` returns inside `process_file`. -/
def preChunks (sp : List Char → List (List Char)) (f : SrcFile) : List (List Char) :=
  match f.content with
  | none => []
  | some raw => sp (trim raw)

/-- `KnowledgeBaseIndexer.split_documents`, restricted to one document:
same split/filter/tag loop but with the hard-coded minimum size 10 and
`chunk_id = f"{doc.metadata['filename']}_{i}"` — the full file name,
extension included. -/
def split_documents (sp : List Char → List (List Char))
    (filename content : List Char) : List Chunk :=
  let chunks := sp content
  tagChunks filename 10 chunks.length 0 chunks

/-- The Chroma collection as the pipeline drives it: stored entries are
(internal id, document) pairs; `nextId` models the stream of fresh UUIDs
Chroma assigns when `add_documents` is called without explicit ids. -/
structure VStore where
  entries : List (Nat × Chunk)
  nextId : Nat
deriving DecidableEq, Repr

/-- `Chroma.add_documents(new_chunks)` as called by `update_vector_db`:
no ids are passed, so every document is appended under a fresh internal id. -/
def add_documents (st : VStore) (chunks : List Chunk) : VStore :=
  ⟨st.entries ++ chunks.enum.map (fun p => (st.nextId + p.1, p.2)),
   st.nextId + chunks.length⟩

/-- `AutoUpdateManager.update_vector_db`: returns 0 on an empty batch, else
adds the documents and returns the batch size. -/
def update_vector_db (st : VStore) (new_chunks : List Chunk) : Nat × VStore :=
  if new_chunks = [] then (0, st)
  else (new_chunks.length, add_documents st new_chunks)

/-- Number of stored entries carrying a given `chunk_id`. -/
def countById (st : VStore) (cid : List Char) : Nat :=
  (st.entries.filter (fun e => e.2.chunkId = cid)).length

/-- The `stats` dict of `run_update`, restricted to the counters the
claims are about. -/
structure RunStats where
  files_processed : Nat
  chunks_added : Nat
  errors : Nat
deriving DecidableEq, Repr

/-- The observable outcome of one `run_update` call: the returned stats,
the vector store, and the processed-files cache. -/
structure RunResult where
  stats : RunStats
  store : VStore
  cache : Cache
deriving DecidableEq, Repr

/-- One iteration of the `for file_path, file_hash in new_files` loop in
`run_update`: accumulate the file's chunks and record its hash in the cache
only when `process_file` returned a non-empty list. -/
def runStep (sp : List Char → List (List Char)) (minSize : Nat)
    (acc : List Chunk × Nat × Cache) (fh : SrcFile × String) :
    List Chunk × Nat × Cache :=
  let chunks := process_file sp minSize fh.1
  if chunks = [] then acc
  else (acc.1 ++ chunks, acc.2.1 + 1, cacheUpdate acc.2.2 fh.1.key fh.2)

/-- `AutoUpdateManager.run_update`: scan, process each selected file,
write the accumulated chunks in one batch, return the stats together with
the final store and cache.  `errors` counts per-file and fatal exceptions;
in this pure model neither the swallowed-exception `process_file` nor the
batch write can raise, so it stays 0 (which is what the Python run also
reports for read failures — see the C3 theorem). -/
def run_update (sp : List Char → List (List Char)) (hashFn : List Char → String)
    (minSize : Nat) (store : VStore) (cache : Cache) (files : List SrcFile) :
    RunResult :=
  let new_files := scan_for_new_files hashFn cache files
  let acc := new_files.foldl (runStep sp minSize) ([], 0, cache)
  let res := if acc.1 = [] then (0, store) else update_vector_db store acc.1
  ⟨⟨acc.2.1, res.1, 0⟩, res.2, acc.2.2⟩

/-- `main()` of `update_index.py`: exit 1 when initialization or the run
raises, else 1 when the returned stats recorded any error, else 0. -/
def mainExitCode (r : Except String RunStats) : Nat :=
  match r with
  | Except.error _ => 1
  | Except.ok stats => if stats.errors > 0 then 1 else 0

/-- Control points of `UpdateScheduler.interval_worker`:
the `while self.running` test, the guarded cycle body
(`run_update_script` and the surrounding `try`), the `time.sleep(60)`
of the `except` branch, the polling `for` loop with `k` iterations left,
and loop exit. -/
inductive SchedState where
  | whileCheck
  | runCycle
  | errPause
  | sleepCheck (k : Nat)
  | exited
deriving DecidableEq, Repr

/-- What the worker observes at one step: the value of the shared
`self.running` flag when it is read, and whether the cycle body raises. -/
structure SchedInput where
  running : Bool
  raises : Bool
deriving DecidableEq, Repr

/-- Small-step transition of `interval_worker` with `interval_seconds = N`:
`while self.running:` runs the cycle or exits; an exception in the cycle is
caught and leads to the 60-second pause, then back to the `while` test; the
polling loop checks the flag before each 1-second sleep and breaks to the
`while` test when it is cleared or when the interval has elapsed. -/
def interval_worker_step (N : Nat) : SchedState → SchedInput → SchedState
  | SchedState.whileCheck, i =>
    if i.running then SchedState.runCycle else SchedState.exited
  | SchedState.runCycle, i =>
    if i.raises then SchedState.errPause else SchedState.sleepCheck N
  | SchedState.errPause, _ => SchedState.whileCheck
  | SchedState.sleepCheck 0, _ => SchedState.whileCheck
  | SchedState.sleepCheck (k + 1), i =>
    if i.running then SchedState.sleepCheck k else SchedState.whileCheck
  | SchedState.exited, _ => SchedState.exited

/-- Modelled from the spec: the Recursive Chunker (§4.4).  The repository
invokes `langchain`'s `RecursiveCharacterTextSplitter`, whose implementation
is not part of this repository's sources; the splitting algorithm below
follows the spec's six steps.  `splitOnSepFuel` splits a text on one
separator, keeping the separator attached to the preceding piece, with a
structural fuel (one unit per consumed character) so the kernel can
evaluate it. -/
def splitOnSepFuel (sep : List Char) : Nat → List Char → List Char → List (List Char)
  | _, [], acc => [acc.reverse]
  | 0, t, acc => [acc.reverse ++ t]
  | fuel + 1, c :: rest, acc =>
    if sep ≠ [] ∧ (c :: rest).take sep.length = sep then
      (acc.reverse ++ sep) :: splitOnSepFuel sep fuel ((c :: rest).drop sep.length) []
    else
      splitOnSepFuel sep fuel rest (c :: acc)

/-- Modelled from the spec: split a text on one separator (spec §4.4
step 1), separator kept with the preceding piece so that concatenating the
pieces reproduces the text. -/
def splitOnSep (sep : List Char) (t : List Char) : List (List Char) :=
  splitOnSepFuel sep t.length t []

/-- Modelled from the spec: recursive splitting (spec §4.4 steps 1 and 3).
Split on the coarsest separator; any piece still longer than `S` is split
further with the remaining separators; the empty separator splits into
single characters (the base case). -/
def recSplit (S : Nat) : List (List Char) → List Char → List (List Char)
  | [], t => [t]
  | sep :: rest, t =>
    if sep = [] then t.map (fun c => [c])
    else
      ((splitOnSep sep t).filter (fun p => ¬ p = [])).flatMap
        (fun p => if p.length ≤ S then [p] else recSplit S rest p)

/-- Modelled from the spec: the trailing slice of length `O` that seeds the
next buffer when a fragment is closed (spec §4.4 step 4) — the whole
fragment when it is shorter than `O`. -/
def seedOf (O : Nat) (x : List Char) : List Char := x.drop (x.length - O)

/-- Modelled from the spec: one step of the greedy accumulation (spec §4.4
steps 2 and 4).  Before appending the next piece, if the buffer is
non-empty and would overflow `S`, close it as a fragment and seed the new
buffer with its trailing `O` characters. -/
def mergeStep (S O : Nat) (st : List (List Char) × List Char) (p : List Char) :
    List (List Char) × List Char :=
  if ¬ st.2 = [] ∧ st.2.length + p.length > S then
    (st.1 ++ [st.2], seedOf O st.2 ++ p)
  else
    (st.1, st.2 ++ p)

/-- Modelled from the spec: fold the pieces through `mergeStep` and close
the final non-empty buffer (spec §4.4 steps 2, 4, 5). -/
def mergePieces (S O : Nat) (pieces : List (List Char)) : List (List Char) :=
  let st := pieces.foldl (mergeStep S O) ([], [])
  if st.2 = [] then st.1 else st.1 ++ [st.2]

/-- Modelled from the spec: the Recursive Chunker's pre-filter fragment
sequence for one document (spec §4.4 steps 1-5; the minimum-size filter of
step 6 lives in the callers' tagging loops). -/
def chunkText (S O : Nat) (seps : List (List Char)) (T : List Char) :
    List (List Char) :=
  mergePieces S O (recSplit S seps T)

/-- The separator list `["\n\n", "\n", ". ", "! ", "? ", " ", ""]` passed to
the splitter in `_initialize_components`. -/
def defaultSeps : List (List Char) :=
  [['\n', '\n'], ['\n'], ['.', ' '], ['!', ' '], ['?', ' '], [' '], []]

/-! ### Helper lemmas -/

lemma digitChar_toNat : ∀ d : Nat, d < 10 → (digitChar d).toNat = 48 + d := by
  decide

lemma unDigits_natDigitsFuel :
    ∀ (fuel n : Nat), n < fuel → unDigits (natDigitsFuel fuel n) = n := by
  intro fuel
  induction fuel with
  | zero => intro n hn; omega
  | succ fuel ih =>
    intro n hn
    rw [natDigitsFuel]
    by_cases h10 : n < 10
    · simp only [if_pos h10, unDigits, List.foldl_cons, List.foldl_nil]
      rw [digitChar_toNat n h10]
      omega
    · simp only [if_neg h10]
      have hdiv : n / 10 < n := Nat.div_lt_self (by omega) (by omega)
      have hfuel : n / 10 < fuel := by omega
      simp only [unDigits, List.foldl_append, List.foldl_cons, List.foldl_nil]
      have := ih (n / 10) hfuel
      simp only [unDigits] at this
      rw [this, digitChar_toNat (n % 10) (Nat.mod_lt _ (by omega))]
      omega

lemma natDigits_injective {a b : Nat} (h : natDigits a = natDigits b) : a = b := by
  have ha := unDigits_natDigitsFuel (a + 1) a (Nat.lt_succ_self a)
  have hb := unDigits_natDigitsFuel (b + 1) b (Nat.lt_succ_self b)
  rw [natDigits] at h
  rw [natDigits] at h
  rw [← ha, h, hb]

lemma mem_tagChunks {base : List Char} {M total : Nat} :
    ∀ {i : Nat} {cs : List (List Char)} {ch : Chunk},
      ch ∈ tagChunks base M total i cs →
        M ≤ (trim ch.content).length ∧
        ch.chunkId = base ++ '_' :: natDigits ch.chunkIndex ∧
        ch.totalChunks = total ∧
        i ≤ ch.chunkIndex ∧
        cs.get? (ch.chunkIndex - i) = some ch.content := by
  intro i cs
  induction cs generalizing i with
  | nil => intro ch h; simp [tagChunks] at h
  | cons c rest ih =>
    intro ch h
    rw [tagChunks] at h
    by_cases hkeep : M ≤ (trim c).length
    · rw [if_pos hkeep] at h
      rcases List.mem_cons.mp h with hhead | htail
      · subst hhead
        refine ⟨hkeep, rfl, rfl, Nat.le_refl _, ?_⟩
        simp
      · obtain ⟨h1, h2, h3, h4, h5⟩ := ih htail
        refine ⟨h1, h2, h3, by omega, ?_⟩
        have : ch.chunkIndex - i = (ch.chunkIndex - (i + 1)) + 1 := by omega
        rw [this]
        simpa using h5
    · rw [if_neg hkeep] at h
      obtain ⟨h1, h2, h3, h4, h5⟩ := ih h
      refine ⟨h1, h2, h3, by omega, ?_⟩
      have : ch.chunkIndex - i = (ch.chunkIndex - (i + 1)) + 1 := by omega
      rw [this]
      simpa using h5

lemma tagChunks_pairwise_lt {base : List Char} {M total : Nat} :
    ∀ {i : Nat} {cs : List (List Char)},
      (tagChunks base M total i cs).Pairwise (fun a b => a.chunkIndex < b.chunkIndex) := by
  intro i cs
  induction cs generalizing i with
  | nil => simp [tagChunks]
  | cons c rest ih =>
    rw [tagChunks]
    by_cases hkeep : M ≤ (trim c).length
    · rw [if_pos hkeep]
      refine List.Pairwise.cons ?_ ih
      intro b hb
      have := (mem_tagChunks hb).2.2.2.1
      simpa using Nat.lt_of_succ_le this
    · rw [if_neg hkeep]; exact ih

lemma tagChunks_ids_distinct {base : List Char} {M total i : Nat}
    {cs : List (List Char)} :
    (tagChunks base M total i cs).Pairwise (fun a b => a.chunkId ≠ b.chunkId) := by
  refine List.Pairwise.imp_of_mem ?_ (@tagChunks_pairwise_lt base M total i cs)
  intro a b ha hb hlt heq
  have ida : a.chunkId = base ++ '_' :: natDigits a.chunkIndex := (mem_tagChunks ha).2.1
  have idb : b.chunkId = base ++ '_' :: natDigits b.chunkIndex := (mem_tagChunks hb).2.1
  rw [ida, idb] at heq
  have := List.append_cancel_left heq
  have hd : natDigits a.chunkIndex = natDigits b.chunkIndex := by
    injection this
  have := natDigits_injective hd
  omega

/-- A membership view of `process_file`: every produced chunk comes from the
tagging loop over the pre-filter fragment list, started at index 0. -/
lemma mem_process_file {sp : List Char → List (List Char)} {M : Nat} {f : SrcFile}
    {ch : Chunk} (h : ch ∈ process_file sp M f) :
    ch ∈ tagChunks (pathStem f.filename) M (preChunks sp f).length 0 (preChunks sp f) := by
  rcases f with ⟨key, fn, content⟩
  cases content with
  | none => simp [process_file] at h
  | some raw =>
    simp only [process_file] at h
    by_cases hempty : trim raw = []
    · rw [if_pos hempty] at h; simp at h
    · rw [if_neg hempty] at h
      simpa [preChunks] using h

/-- Small demonstration pipeline: the spec-modelled chunker with target
size 12, overlap 2, separators `[". ", " "]`. -/
def demoSplit : List Char → List (List Char) := chunkText 12 2 [['.', ' '], [' ']]

/-- Demonstration input file. -/
def demoFile : SrcFile := ⟨"kb/a.txt", "a.txt".data, some "Hello there. Hi. Goodbye now.".data⟩

/-- The second pre-filter fragment of `demoFile`, which survives the
minimum-size filter at `min_chunk_size = 6`. -/
def demoChunk : Chunk := ⟨"o there. ".data, "a_1".data, 1, 4⟩

/-- A chunk as tagged by `KnowledgeBaseIndexer.split_documents` on a file
named `notes.txt`. -/
def demoBuildChunk : Chunk := ⟨"hello world notes".data, "notes.txt_0".data, 0, 1⟩

/-- C1: the claim says a write whose fragment identifier already exists in
the vector store replaces the prior entry.  The code calls
`Chroma.add_documents` without ids, so the store appends a second entry:
after writing the same `chunk_id` twice the store holds two entries for it,
not one. -/
theorem index_writer_appends_duplicate :
    countById
      (update_vector_db (update_vector_db ⟨[], 0⟩ [⟨"payload".data, "a_0".data, 0, 1⟩]).2
        [⟨"payload".data, "a_0".data, 0, 1⟩]).2 "a_0".data = 2 := by
  decide

/-- C5 (counterexample): in `KnowledgeBaseIndexer.split_documents` the
fragment identifier is `f"{filename}_{i}"` with the extension kept, so a
tagged fragment of `notes.txt` carries identifier `"notes.txt_0"`, not the
claimed `"{filename-stem}_{position}"` (which would be `"notes_0"`). -/
theorem build_tagger_id_not_stem :
    ∃ ch ∈ split_documents (chunkText 2000 200 defaultSeps) "notes.txt".data
        "hello world notes".data,
      ch.chunkId ≠ pathStem "notes.txt".data ++ '_' :: natDigits ch.chunkIndex := by
  decide

/-- C5 (amended): the incremental updater's tagger attaches
`chunk_id = f"{file_path.stem}_{i}"` with `i` the fragment's 0-based
pre-filter position; the bulk indexer's tagger attaches
`f"{filename}_{i}"` with the extension kept.  In both, identifiers are
unique within one file's fragment set, and they are a pure function of the
file name and position, so re-processing unchanged content reproduces them. -/
theorem tagger_id_shape_and_unique (sp : List Char → List (List Char)) (M : Nat)
    (f : SrcFile) (fn ct : List Char) :
    (∀ ch ∈ process_file sp M f,
        ch.chunkId = pathStem f.filename ++ '_' :: natDigits ch.chunkIndex) ∧
    (process_file sp M f).Pairwise (fun a b => a.chunkId ≠ b.chunkId) ∧
    (∀ ch ∈ split_documents sp fn ct,
        ch.chunkId = fn ++ '_' :: natDigits ch.chunkIndex) ∧
    (split_documents sp fn ct).Pairwise (fun a b => a.chunkId ≠ b.chunkId) := by
  refine ⟨?_, ?_, ?_, ?_⟩
  · intro ch h
    exact (mem_tagChunks (mem_process_file h)).2.1
  · rcases f with ⟨key, fname, content⟩
    cases content with
    | none => simp [process_file]
    | some raw =>
      simp only [process_file]
      by_cases hempty : trim raw = []
      · rw [if_pos hempty]; simp
      · rw [if_neg hempty]; exact tagChunks_ids_distinct
  · intro ch h
    exact (mem_tagChunks h).2.1
  · exact tagChunks_ids_distinct

/-- C6: no fragment in the post-filter output of `process_file` has a
trimmed length below the configured `min_chunk_size`, and none in
`split_documents`'s output has a trimmed length below its hard-coded
minimum 10; the filter is a pass over the already-complete segmentation. -/
theorem min_size_filter (sp sp2 : List Char → List (List Char)) (M : Nat) (f : SrcFile)
    (fn ct : List Char) (ch ch2 : Chunk)
    (h : ch ∈ process_file sp M f) (h2 : ch2 ∈ split_documents sp2 fn ct) :
    M ≤ (trim ch.content).length ∧ 10 ≤ (trim ch2.content).length :=
  ⟨(mem_tagChunks (mem_process_file h)).1, (mem_tagChunks h2).1⟩

/-- C6 witness: concrete retained chunks of the demonstration pipelines
satisfy the minimum-size bounds. -/
theorem min_size_filter_witness :
    (demoChunk ∈ process_file demoSplit 6 demoFile ∧
     demoBuildChunk ∈ split_documents (chunkText 2000 200 defaultSeps) "notes.txt".data
       "hello world notes".data) ∧
    (6 ≤ (trim demoChunk.content).length ∧ 10 ≤ (trim demoBuildChunk.content).length) :=
  ⟨⟨by decide, by decide⟩,
   min_size_filter demoSplit (chunkText 2000 200 defaultSeps) 6 demoFile
     "notes.txt".data "hello world notes".data
     demoChunk demoBuildChunk (by decide) (by decide)⟩

/-- C7: `main` exits 0 exactly when the run completed and recorded zero
errors, and otherwise (a fatal exception, or a positive error count) exits 1. -/
theorem exit_code_zero_iff_no_errors (r : Except String RunStats) :
    (mainExitCode r = 0 ↔ ∃ s, r = Except.ok s ∧ s.errors = 0) ∧
    (mainExitCode r = 0 ∨ mainExitCode r = 1) := by
  cases r with
  | error e => simp [mainExitCode]
  | ok s =>
    by_cases h : s.errors > 0 <;> simp [mainExitCode, h] <;> omega

/-- C8: in the interval worker, a raising cycle transitions to the caught
pause state and from there back to the `while` test (the loop survives any
cycle failure); the loop reaches `exited` only from the `while` test with
the flag cleared; and with the flag cleared every polling point breaks to
the `while` test without sleeping again and the `while` test exits without
starting a new cycle. -/
theorem interval_worker_resilient_cancellable (N : Nat) (s : SchedState)
    (i : SchedInput) (k : Nat) :
    (interval_worker_step N SchedState.runCycle ⟨i.running, true⟩ = SchedState.errPause) ∧
    (interval_worker_step N SchedState.errPause i = SchedState.whileCheck) ∧
    (interval_worker_step N s i = SchedState.exited ↔
      s = SchedState.exited ∨ (s = SchedState.whileCheck ∧ i.running = false)) ∧
    (interval_worker_step N (SchedState.sleepCheck k) ⟨false, i.raises⟩
        = SchedState.whileCheck) ∧
    (interval_worker_step N SchedState.whileCheck ⟨false, i.raises⟩ = SchedState.exited) := by
  refine ⟨rfl, rfl, ?_, ?_, rfl⟩
  · cases s with
    | whileCheck =>
      by_cases hr : i.running <;> simp [interval_worker_step, hr]
    | runCycle =>
      by_cases hr : i.raises <;> simp [interval_worker_step, hr]
    | errPause => simp [interval_worker_step]
    | sleepCheck k =>
      cases k with
      | zero => simp [interval_worker_step]
      | succ k => by_cases hr : i.running <;> simp [interval_worker_step, hr]
    | exited => simp [interval_worker_step]
  · cases k with
    | zero => rfl
    | succ k => rfl

/-- C10: `total_chunks` is the pre-filter fragment count of the owning
document and `chunk_index` the fragment's pre-filter position (so the
retained fragment at that index is the chunk's own text); the demonstration
run shows retained indices `[1, 3]` out of 4 pre-filter fragments —
non-contiguous, and fewer retained fragments than `total_chunks`. -/
theorem chunk_index_refers_to_prefilter (sp : List Char → List (List Char))
    (M : Nat) (f : SrcFile) (ch : Chunk) (h : ch ∈ process_file sp M f) :
    (ch.totalChunks = (preChunks sp f).length ∧
     (preChunks sp f).get? ch.chunkIndex = some ch.content) ∧
    ((process_file demoSplit 6 demoFile).map Chunk.chunkIndex = [1, 3] ∧
     (preChunks demoSplit demoFile).length = 4) := by
  have hm := mem_tagChunks (mem_process_file h)
  refine ⟨⟨hm.2.2.1, ?_⟩, by decide, by decide⟩
  have := hm.2.2.2.2
  simpa using this

/-- C10 witness: the second demonstration chunk has `total_chunks = 4`,
sits at pre-filter index 1, and the demonstration run's retained indices
are `[1, 3]`. -/
theorem chunk_index_refers_to_prefilter_witness :
    demoChunk ∈ process_file demoSplit 6 demoFile ∧
    ((demoChunk.totalChunks = (preChunks demoSplit demoFile).length ∧
      (preChunks demoSplit demoFile).get? demoChunk.chunkIndex = some demoChunk.content) ∧
     ((process_file demoSplit 6 demoFile).map Chunk.chunkIndex = [1, 3] ∧
      (preChunks demoSplit demoFile).length = 4)) :=
  ⟨by decide, chunk_index_refers_to_prefilter demoSplit 6 demoFile demoChunk (by decide)⟩

/-- The overlap relation between consecutive fragments: the next fragment
begins with the seed (trailing `O`-slice) of the previous one. -/
def ovPair (O : Nat) (a b : List Char) : Prop :=
  b.take (seedOf O a).length = seedOf O a

lemma take_eq_self_length_le {b x : List Char} (h : b.take x.length = x) :
    x.length ≤ b.length := by
  have := congrArg List.length h
  simp only [List.length_take] at this
  omega

lemma take_eq_append_right {b p x : List Char} (h : b.take x.length = x) :
    (b ++ p).take x.length = x := by
  rw [List.take_append_eq_append_take]
  have hle : x.length ≤ b.length := take_eq_self_length_le h
  have : x.length - b.length = 0 := by omega
  rw [this]
  simp [h]

lemma ovPair_append {O : Nat} {a b p : List Char} (h : ovPair O a b) :
    ovPair O a (b ++ p) :=
  take_eq_append_right h

lemma ovPair_seed (O : Nat) (x p : List Char) : ovPair O x (seedOf O x ++ p) := by
  unfold ovPair
  rw [List.take_append_eq_append_take]
  simp

lemma merge_foldl_inv (S O : Nat) :
    ∀ (pieces : List (List Char)) (frags : List (List Char)) (buf : List Char),
      List.Chain' (ovPair O) frags →
      (∀ x, frags.getLast? = some x → ovPair O x buf) →
      List.Chain' (ovPair O) (pieces.foldl (mergeStep S O) (frags, buf)).1 ∧
      (∀ x, ((pieces.foldl (mergeStep S O) (frags, buf)).1).getLast? = some x →
        ovPair O x (pieces.foldl (mergeStep S O) (frags, buf)).2) := by
  intro pieces
  induction pieces with
  | nil => intro frags buf h1 h2; exact ⟨h1, h2⟩
  | cons p ps ih =>
    intro frags buf h1 h2
    simp only [List.foldl_cons]
    by_cases hc : ¬ buf = [] ∧ buf.length + p.length > S
    · have hstep : mergeStep S O (frags, buf) p = (frags ++ [buf], seedOf O buf ++ p) := by
        simp [mergeStep, hc]
      rw [hstep]
      apply ih
      · refine List.chain'_append.mpr ⟨h1, List.chain'_singleton _, ?_⟩
        intro x hx y hy
        simp only [List.head?_cons, Option.mem_def, Option.some.injEq] at hy
        subst hy
        exact h2 x hx
      · intro x hx
        rw [List.getLast?_concat] at hx
        injection hx with hx
        subst hx
        exact ovPair_seed O _ p
    · have hstep : mergeStep S O (frags, buf) p = (frags, buf ++ p) := by
        simp only [mergeStep]
        rw [if_neg hc]
      rw [hstep]
      apply ih
      · exact h1
      · intro x hx
        exact ovPair_append (h2 x hx)

lemma mergePieces_chain (S O : Nat) (pieces : List (List Char)) :
    List.Chain' (ovPair O) (mergePieces S O pieces) := by
  unfold mergePieces
  obtain ⟨h1, h2⟩ := merge_foldl_inv S O pieces [] [] List.chain'_nil (by simp)
  by_cases hb : (pieces.foldl (mergeStep S O) ([], [])).2 = []
  · rw [if_pos hb]; exact h1
  · rw [if_neg hb]
    refine List.chain'_append.mpr ⟨h1, List.chain'_singleton _, ?_⟩
    intro x hx y hy
    simp only [List.head?_cons, Option.mem_def, Option.some.injEq] at hy
    subst hy
    exact h2 x hx

lemma chunkText_chain (S O : Nat) (seps : List (List Char)) (T : List Char) :
    List.Chain' (ovPair O) (chunkText S O seps T) :=
  mergePieces_chain S O (recSplit S seps T)

/-- C4 (spec-modelled chunker): for consecutive fragments `i` and `i+1` of
one document, the last `O` characters of fragment `i` equal the first `O`
characters of fragment `i+1`; when fragment `i` is shorter than `O`, the
whole of fragment `i` is the leading slice of fragment `i+1`. -/
theorem chunker_overlap (S O : Nat) (seps : List (List Char)) (T : List Char)
    (i : Nat) (h : i + 1 < (chunkText S O seps T).length) :
    (O ≤ ((chunkText S O seps T).get ⟨i, Nat.lt_of_succ_lt h⟩).length →
      ((chunkText S O seps T).get ⟨i + 1, h⟩).take O
        = ((chunkText S O seps T).get ⟨i, Nat.lt_of_succ_lt h⟩).drop
            (((chunkText S O seps T).get ⟨i, Nat.lt_of_succ_lt h⟩).length - O)) ∧
    (((chunkText S O seps T).get ⟨i, Nat.lt_of_succ_lt h⟩).length < O →
      ((chunkText S O seps T).get ⟨i + 1, h⟩).take
          ((chunkText S O seps T).get ⟨i, Nat.lt_of_succ_lt h⟩).length
        = (chunkText S O seps T).get ⟨i, Nat.lt_of_succ_lt h⟩) := by
  have hchain := chunkText_chain S O seps T
  have hov := (List.chain'_iff_get.mp hchain) i (by omega)
  unfold ovPair at hov
  set frags := chunkText S O seps T with hfr
  set fi := frags.get ⟨i, Nat.lt_of_succ_lt h⟩ with hfi
  have hlen : (seedOf O fi).length = fi.length - (fi.length - O) := by
    simp [seedOf]
  constructor
  · intro hO
    have hlo : (seedOf O fi).length = O := by omega
    rw [hlo] at hov
    rw [hov]
    simp [seedOf]
  · intro hO
    have hsub : fi.length - O = 0 := by omega
    have hseed : seedOf O fi = fi := by
      simp [seedOf, hsub]
    rw [hseed] at hov
    exact hov

/-- C4 witness: with `S = 12`, `O = 3`, separators `["\n\n", ""]` and the
document `"Alpha.\n\nBeta.\n\nGamma."`, fragments 0 and 1 share an exact
3-character overlap. -/
theorem chunker_overlap_witness :
    0 + 1 < (chunkText 12 3 [['\n', '\n'], []] "Alpha.\n\nBeta.\n\nGamma.".data).length ∧
    ((3 ≤ ((chunkText 12 3 [['\n', '\n'], []] "Alpha.\n\nBeta.\n\nGamma.".data).get
          ⟨0, by decide⟩).length →
      ((chunkText 12 3 [['\n', '\n'], []] "Alpha.\n\nBeta.\n\nGamma.".data).get
          ⟨0 + 1, by decide⟩).take 3
        = ((chunkText 12 3 [['\n', '\n'], []] "Alpha.\n\nBeta.\n\nGamma.".data).get
            ⟨0, by decide⟩).drop
            (((chunkText 12 3 [['\n', '\n'], []] "Alpha.\n\nBeta.\n\nGamma.".data).get
              ⟨0, by decide⟩).length - 3)) ∧
    (((chunkText 12 3 [['\n', '\n'], []] "Alpha.\n\nBeta.\n\nGamma.".data).get
          ⟨0, by decide⟩).length < 3 →
      ((chunkText 12 3 [['\n', '\n'], []] "Alpha.\n\nBeta.\n\nGamma.".data).get
          ⟨0 + 1, by decide⟩).take
          ((chunkText 12 3 [['\n', '\n'], []] "Alpha.\n\nBeta.\n\nGamma.".data).get
            ⟨0, by decide⟩).length
        = (chunkText 12 3 [['\n', '\n'], []] "Alpha.\n\nBeta.\n\nGamma.".data).get
            ⟨0, by decide⟩)) :=
  ⟨by decide,
   chunker_overlap 12 3 [['\n', '\n'], []] "Alpha.\n\nBeta.\n\nGamma.".data 0 (by decide)⟩

/-- The cache component of the processing loop, in isolation: record the
scanned hash for exactly the selected files whose `process_file` result was
non-empty. -/
def cacheFold (sp : List Char → List (List Char)) (M : Nat)
    (l : List (SrcFile × String)) (c : Cache) : Cache :=
  l.foldl (fun c2 fh =>
    if process_file sp M fh.1 = [] then c2 else cacheUpdate c2 fh.1.key fh.2) c

lemma cacheLookup_update (c : Cache) (k v key : String) :
    cacheLookup (cacheUpdate c k v) key =
      if k = key then some v else cacheLookup c key := by
  induction c with
  | nil => simp [cacheUpdate, cacheLookup]
  | cons a rest ih =>
    rcases a with ⟨ak, av⟩
    by_cases hak : ak = k
    · subst hak
      simp only [cacheUpdate, if_pos rfl, cacheLookup]
      by_cases hkey : ak = key <;> simp [hkey]
    · simp only [cacheUpdate, if_neg hak, cacheLookup]
      by_cases hkey : ak = key
      · subst hkey
        have : ¬ k = ak := fun hh => hak hh.symm
        simp [this]
      · simp [hkey, ih]

lemma foldl_cache_proj (sp : List Char → List (List Char)) (M : Nat) :
    ∀ (l : List (SrcFile × String)) (acc : List Chunk × Nat × Cache),
      (l.foldl (runStep sp M) acc).2.2 = cacheFold sp M l acc.2.2 := by
  intro l
  induction l with
  | nil => intro acc; rfl
  | cons fh t ih =>
    intro acc
    simp only [List.foldl_cons, cacheFold]
    by_cases hpf : process_file sp M fh.1 = []
    · have h1 : runStep sp M acc fh = acc := by simp [runStep, hpf]
      rw [h1, if_pos hpf]
      exact ih acc
    · have h1 : runStep sp M acc fh =
          (acc.1 ++ process_file sp M fh.1, acc.2.1 + 1,
           cacheUpdate acc.2.2 fh.1.key fh.2) := by
        simp [runStep, hpf]
      rw [h1, if_neg hpf]
      exact ih _

lemma foldl_no_chunks (sp : List Char → List (List Char)) (M : Nat) :
    ∀ (l : List (SrcFile × String)) (acc : List Chunk × Nat × Cache),
      (∀ fh ∈ l, process_file sp M fh.1 = []) →
      l.foldl (runStep sp M) acc = acc := by
  intro l
  induction l with
  | nil => intro acc _; rfl
  | cons fh t ih =>
    intro acc hall
    simp only [List.foldl_cons]
    have h1 : runStep sp M acc fh = acc := by
      simp [runStep, hall fh (List.mem_cons_self fh t)]
    rw [h1]
    exact ih acc (fun x hx => hall x (List.mem_cons_of_mem fh hx))

lemma cacheFold_lookup_frame {sp : List Char → List (List Char)} {M : Nat}
    {key : String} :
    ∀ {l : List (SrcFile × String)} {c : Cache},
      (∀ fh ∈ l, fh.1.key ≠ key ∨ process_file sp M fh.1 = []) →
      cacheLookup (cacheFold sp M l c) key = cacheLookup c key := by
  intro l
  induction l with
  | nil => intro c _; rfl
  | cons fh t ih =>
    intro c hall
    simp only [cacheFold, List.foldl_cons]
    by_cases hpf : process_file sp M fh.1 = []
    · rw [if_pos hpf]
      exact ih (fun x hx => hall x (List.mem_cons_of_mem fh hx))
    · rw [if_neg hpf]
      have hx := hall fh (List.mem_cons_self fh t)
      have hne : fh.1.key ≠ key := hx.resolve_right hpf
      have := ih (c := cacheUpdate c fh.1.key fh.2)
        (fun x hx => hall x (List.mem_cons_of_mem fh hx))
      rw [cacheFold] at this
      rw [this, cacheLookup_update, if_neg hne]

lemma cacheFold_lookup_written {sp : List Char → List (List Char)} {M : Nat}
    {f : SrcFile} {h : String} :
    ∀ {l : List (SrcFile × String)} {c : Cache},
      (l.map (fun fh => fh.1.key)).Nodup →
      (f, h) ∈ l →
      process_file sp M f ≠ [] →
      cacheLookup (cacheFold sp M l c) f.key = some h := by
  intro l
  induction l with
  | nil => intro c _ hmem; simp at hmem
  | cons fh t ih =>
    intro c hnd hmem hpf
    simp only [List.map_cons, List.nodup_cons] at hnd
    obtain ⟨hnotmem, hnd'⟩ := hnd
    simp only [cacheFold, List.foldl_cons]
    rcases List.mem_cons.mp hmem with heq | htail
    · have hfh1 : fh.1 = f := by rw [← heq]
      have hfh2 : fh.2 = h := by rw [← heq]
      rw [hfh1, hfh2, if_neg hpf]
      have hframe : ∀ x ∈ t, x.1.key ≠ f.key ∨ process_file sp M x.1 = [] := by
        intro x hx
        left
        intro hcontra
        apply hnotmem
        rw [← hfh1] at hcontra
        exact List.mem_map.mpr ⟨x, hx, hcontra⟩
      have := cacheFold_lookup_frame (c := cacheUpdate c f.key h) hframe
      rw [cacheFold] at this
      rw [this, cacheLookup_update, if_pos rfl]
    · by_cases hpfh : process_file sp M fh.1 = []
      · rw [if_pos hpfh]
        exact ih hnd' htail hpf
      · rw [if_neg hpfh]
        exact ih hnd' htail hpf

lemma scanEntry_some_iff {hashFn : List Char → String} {cache : Cache}
    {f : SrcFile} {fh : SrcFile × String} :
    scanEntry hashFn cache f = some fh ↔
      fh = (f, calculate_file_hash hashFn f) ∧
      cacheLookup cache f.key ≠ some (calculate_file_hash hashFn f) := by
  unfold scanEntry
  cases hc : cacheLookup cache f.key with
  | none =>
    simp only [Option.some.injEq]
    constructor
    · intro hyp; exact ⟨hyp.symm, by simp⟩
    · intro hyp; exact hyp.1.symm
  | some h0 =>
    by_cases he : h0 = calculate_file_hash hashFn f
    · subst he
      simp
    · simp only [if_neg he, Option.some.injEq]
      constructor
      · intro hyp
        refine ⟨hyp.symm, ?_⟩
        intro hcontra
        injection hcontra with hcontra
        exact he hcontra
      · intro hyp; exact hyp.1.symm

lemma scanEntry_none_iff {hashFn : List Char → String} {cache : Cache}
    {f : SrcFile} :
    scanEntry hashFn cache f = none ↔
      cacheLookup cache f.key = some (calculate_file_hash hashFn f) := by
  unfold scanEntry
  cases hc : cacheLookup cache f.key with
  | none => simp
  | some h0 =>
    by_cases he : h0 = calculate_file_hash hashFn f
    · subst he; simp
    · simp only [if_neg he]
      constructor
      · intro hyp; exact absurd hyp (by simp)
      · intro hyp
        injection hyp with hyp
        exact absurd hyp he

lemma mem_scan_fst {hashFn : List Char → String} {cache : Cache}
    {files : List SrcFile} {fh : SrcFile × String}
    (hmem : fh ∈ scan_for_new_files hashFn cache files) :
    fh.1 ∈ files ∧ fh.2 = calculate_file_hash hashFn fh.1 := by
  obtain ⟨f, hf, hsome⟩ := List.mem_filterMap.mp hmem
  obtain ⟨hfh, _⟩ := scanEntry_some_iff.mp hsome
  subst hfh
  exact ⟨hf, rfl⟩

lemma scan_keys_sublist (hashFn : List Char → String) (cache : Cache) :
    ∀ files : List SrcFile,
      ((scan_for_new_files hashFn cache files).map (fun fh => fh.1.key)).Sublist
        (files.map SrcFile.key) := by
  intro files
  induction files with
  | nil => simp [scan_for_new_files]
  | cons f t ih =>
    simp only [scan_for_new_files, List.filterMap_cons, List.map_cons]
    cases hce : scanEntry hashFn cache f with
    | none => exact ih.cons f.key
    | some fh =>
      obtain ⟨hfh, _⟩ := scanEntry_some_iff.mp hce
      subst hfh
      simp only [List.map_cons]
      exact ih.cons₂ f.key

lemma run_update_cache_def (sp : List Char → List (List Char))
    (hashFn : List Char → String) (M : Nat) (store : VStore) (cache : Cache)
    (files : List SrcFile) :
    (run_update sp hashFn M store cache files).cache =
      cacheFold sp M (scan_for_new_files hashFn cache files) cache :=
  foldl_cache_proj sp M (scan_for_new_files hashFn cache files) ([], 0, cache)

lemma run_update_noop (sp : List Char → List (List Char))
    (hashFn : List Char → String) (M : Nat) (store : VStore) (cache : Cache)
    (files : List SrcFile)
    (h : ∀ fh ∈ scan_for_new_files hashFn cache files, process_file sp M fh.1 = []) :
    run_update sp hashFn M store cache files = ⟨⟨0, 0, 0⟩, store, cache⟩ := by
  have hacc := foldl_no_chunks sp M (scan_for_new_files hashFn cache files)
    ([], 0, cache) h
  show (⟨⟨_, _, 0⟩, _, _⟩ : RunResult) = _
  rw [hacc]
  rfl

lemma second_scan_all_empty (sp : List Char → List (List Char))
    (hashFn : List Char → String) (M : Nat) (store : VStore) (cache : Cache)
    (files : List SrcFile) (hk : (files.map SrcFile.key).Nodup) :
    ∀ fh ∈ scan_for_new_files hashFn
        (run_update sp hashFn M store cache files).cache files,
      process_file sp M fh.1 = [] := by
  intro fh hmem
  rw [run_update_cache_def] at hmem
  obtain ⟨f, hf, hsome⟩ := List.mem_filterMap.mp hmem
  obtain ⟨hfh, hne⟩ := scanEntry_some_iff.mp hsome
  subst hfh
  by_contra hpf
  cases hrun1 : scanEntry hashFn cache f with
  | some fh0 =>
    obtain ⟨hfh0, _⟩ := scanEntry_some_iff.mp hrun1
    subst hfh0
    have hmem1 : (f, calculate_file_hash hashFn f) ∈
        scan_for_new_files hashFn cache files :=
      List.mem_filterMap.mpr ⟨f, hf, hrun1⟩
    have hnd : ((scan_for_new_files hashFn cache files).map
        (fun fh => fh.1.key)).Nodup :=
      (scan_keys_sublist hashFn cache files).nodup hk
    exact hne (cacheFold_lookup_written hnd hmem1 hpf)
  | none =>
    have hlk := scanEntry_none_iff.mp hrun1
    have hframe : ∀ fh2 ∈ scan_for_new_files hashFn cache files,
        fh2.1.key ≠ f.key ∨ process_file sp M fh2.1 = [] := by
      intro fh2 hm2
      by_cases hkey : fh2.1.key = f.key
      · exfalso
        obtain ⟨g, hg, hsome2⟩ := List.mem_filterMap.mp hm2
        have hg1 : fh2.1 = g := by
          obtain ⟨hfh2, _⟩ := scanEntry_some_iff.mp hsome2
          rw [hfh2]
        have hgf : g = f :=
          List.inj_on_of_nodup_map hk hg hf (by rw [← hg1, hkey])
        rw [hgf, hrun1] at hsome2
        exact Option.noConfusion hsome2
      · exact Or.inl hkey
    rw [cacheFold_lookup_frame hframe, hlk] at hne
    exact hne rfl

/-- C2: a second `run_update` over the same file list (no filesystem
changes), starting from the first run's store and cache, adds zero chunks
and returns the cache unchanged.  The hypothesis says the scanned file
paths are distinct, as paths enumerated from one directory walk are. -/
theorem run_update_idempotent (sp : List Char → List (List Char))
    (hashFn : List Char → String) (M : Nat) (store : VStore) (cache : Cache)
    (files : List SrcFile) (hk : (files.map SrcFile.key).Nodup) :
    (run_update sp hashFn M (run_update sp hashFn M store cache files).store
        (run_update sp hashFn M store cache files).cache files).stats.chunks_added = 0 ∧
    (run_update sp hashFn M (run_update sp hashFn M store cache files).store
        (run_update sp hashFn M store cache files).cache files).cache =
      (run_update sp hashFn M store cache files).cache := by
  have h2 := run_update_noop sp hashFn M
    (run_update sp hashFn M store cache files).store
    (run_update sp hashFn M store cache files).cache files
    (second_scan_all_empty sp hashFn M store cache files hk)
  rw [h2]
  exact ⟨rfl, rfl⟩

/-- C2 witness: a concrete three-file tree (a normal file, a whitespace-only
file, an unreadable file) with distinct keys; the second run adds zero
chunks and leaves the cache unchanged. -/
theorem run_update_idempotent_witness :
    (([⟨"kb/a.txt", "a.txt".data, some "Hello there. Hi. Goodbye now.".data⟩,
       ⟨"kb/empty.txt", "empty.txt".data, some "  ".data⟩,
       ⟨"kb/bad.txt", "bad.txt".data, none⟩] : List SrcFile).map SrcFile.key).Nodup ∧
    ((run_update demoSplit (fun l => String.mk l) 6
        (run_update demoSplit (fun l => String.mk l) 6 ⟨[], 0⟩ []
          [⟨"kb/a.txt", "a.txt".data, some "Hello there. Hi. Goodbye now.".data⟩,
           ⟨"kb/empty.txt", "empty.txt".data, some "  ".data⟩,
           ⟨"kb/bad.txt", "bad.txt".data, none⟩]).store
        (run_update demoSplit (fun l => String.mk l) 6 ⟨[], 0⟩ []
          [⟨"kb/a.txt", "a.txt".data, some "Hello there. Hi. Goodbye now.".data⟩,
           ⟨"kb/empty.txt", "empty.txt".data, some "  ".data⟩,
           ⟨"kb/bad.txt", "bad.txt".data, none⟩]).cache
        [⟨"kb/a.txt", "a.txt".data, some "Hello there. Hi. Goodbye now.".data⟩,
         ⟨"kb/empty.txt", "empty.txt".data, some "  ".data⟩,
         ⟨"kb/bad.txt", "bad.txt".data, none⟩]).stats.chunks_added = 0 ∧
     (run_update demoSplit (fun l => String.mk l) 6
        (run_update demoSplit (fun l => String.mk l) 6 ⟨[], 0⟩ []
          [⟨"kb/a.txt", "a.txt".data, some "Hello there. Hi. Goodbye now.".data⟩,
           ⟨"kb/empty.txt", "empty.txt".data, some "  ".data⟩,
           ⟨"kb/bad.txt", "bad.txt".data, none⟩]).store
        (run_update demoSplit (fun l => String.mk l) 6 ⟨[], 0⟩ []
          [⟨"kb/a.txt", "a.txt".data, some "Hello there. Hi. Goodbye now.".data⟩,
           ⟨"kb/empty.txt", "empty.txt".data, some "  ".data⟩,
           ⟨"kb/bad.txt", "bad.txt".data, none⟩]).cache
        [⟨"kb/a.txt", "a.txt".data, some "Hello there. Hi. Goodbye now.".data⟩,
         ⟨"kb/empty.txt", "empty.txt".data, some "  ".data⟩,
         ⟨"kb/bad.txt", "bad.txt".data, none⟩]).cache =
      (run_update demoSplit (fun l => String.mk l) 6 ⟨[], 0⟩ []
        [⟨"kb/a.txt", "a.txt".data, some "Hello there. Hi. Goodbye now.".data⟩,
         ⟨"kb/empty.txt", "empty.txt".data, some "  ".data⟩,
         ⟨"kb/bad.txt", "bad.txt".data, none⟩]).cache) :=
  ⟨by decide,
   run_update_idempotent demoSplit (fun l => String.mk l) 6 ⟨[], 0⟩ []
     [⟨"kb/a.txt", "a.txt".data, some "Hello there. Hi. Goodbye now.".data⟩,
      ⟨"kb/empty.txt", "empty.txt".data, some "  ".data⟩,
      ⟨"kb/bad.txt", "bad.txt".data, none⟩] (by decide)⟩

/-- An unreadable file, used to exercise the read-failure path. -/
def badFile : SrcFile := ⟨"kb/bad.txt", "bad.txt".data, none⟩

/-- C3: running over a file whose read raises, the run completes with the
file's cache entry still absent and the file selected again by the next
scan — but the returned error count is 0, not incremented: `process_file`
swallows the exception and returns `[]`, so the per-file `except` branch of
`run_update` that would do `stats["errors"] += 1` never executes. -/
theorem read_failure_errors_zero :
    run_update demoSplit (fun l => String.mk l) 6 ⟨[], 0⟩ [] [badFile] =
      ⟨⟨0, 0, 0⟩, ⟨[], 0⟩, []⟩ ∧
    cacheLookup (run_update demoSplit (fun l => String.mk l) 6 ⟨[], 0⟩ []
      [badFile]).cache badFile.key = none ∧
    (badFile, "") ∈ scan_for_new_files (fun l => String.mk l)
      (run_update demoSplit (fun l => String.mk l) 6 ⟨[], 0⟩ [] [badFile]).cache
      [badFile] := by
  refine ⟨by decide, by decide, by decide⟩

/-- C9: a run creates or updates a cache entry only for files that yielded
at least one retained fragment — every other key reads back unchanged; a
file whose `process_file` result is empty (empty file, all fragments below
the minimum size, or unreadable) and whose entry is absent stays absent and
is selected again by the scan of the very next run. -/
theorem cache_updated_only_on_retained (sp : List Char → List (List Char))
    (hashFn : List Char → String) (M : Nat) (store : VStore) (cache : Cache)
    (files : List SrcFile) (f : SrcFile)
    (hk : (files.map SrcFile.key).Nodup) (hf : f ∈ files)
    (hpf : process_file sp M f = [])
    (habs : cacheLookup cache f.key = none) :
    (∀ k, cacheLookup (run_update sp hashFn M store cache files).cache k ≠
        cacheLookup cache k →
      ∃ g ∈ files, g.key = k ∧ process_file sp M g ≠ []) ∧
    cacheLookup (run_update sp hashFn M store cache files).cache f.key = none ∧
    (f, calculate_file_hash hashFn f) ∈ scan_for_new_files hashFn
      (run_update sp hashFn M store cache files).cache files := by
  have hframe_f : ∀ fh2 ∈ scan_for_new_files hashFn cache files,
      fh2.1.key ≠ f.key ∨ process_file sp M fh2.1 = [] := by
    intro fh2 hm2
    by_cases hkey : fh2.1.key = f.key
    · right
      have hg := (mem_scan_fst hm2).1
      have : fh2.1 = f := List.inj_on_of_nodup_map hk hg hf hkey
      rw [this]
      exact hpf
    · exact Or.inl hkey
  have hlk : cacheLookup (run_update sp hashFn M store cache files).cache f.key
      = none := by
    rw [run_update_cache_def, cacheFold_lookup_frame hframe_f, habs]
  refine ⟨?_, hlk, ?_⟩
  · intro k hdiff
    by_contra hno
    push_neg at hno
    apply hdiff
    rw [run_update_cache_def]
    apply cacheFold_lookup_frame
    intro fh2 hm2
    by_cases hkey : fh2.1.key = k
    · exact Or.inr (hno fh2.1 (mem_scan_fst hm2).1 hkey)
    · exact Or.inl hkey
  · apply List.mem_filterMap.mpr
    refine ⟨f, hf, ?_⟩
    apply scanEntry_some_iff.mpr
    refine ⟨rfl, ?_⟩
    rw [hlk]
    simp

/-- A whitespace-only file: `process_file` strips it to emptiness and
returns no chunks. -/
def emptyFile : SrcFile := ⟨"kb/empty.txt", "empty.txt".data, some "  ".data⟩

/-- C9 witness: the whitespace-only file, run against an empty cache,
satisfies all hypotheses, and the conclusion holds at that instance. -/
theorem cache_updated_only_on_retained_witness :
    ((([emptyFile] : List SrcFile).map SrcFile.key).Nodup ∧
     emptyFile ∈ [emptyFile] ∧
     process_file demoSplit 6 emptyFile = [] ∧
     cacheLookup [] emptyFile.key = none) ∧
    ((∀ k, cacheLookup (run_update demoSplit (fun l => String.mk l) 6 ⟨[], 0⟩ []
          [emptyFile]).cache k ≠ cacheLookup [] k →
        ∃ g ∈ [emptyFile], g.key = k ∧ process_file demoSplit 6 g ≠ []) ∧
     cacheLookup (run_update demoSplit (fun l => String.mk l) 6 ⟨[], 0⟩ []
        [emptyFile]).cache emptyFile.key = none ∧
     (emptyFile, calculate_file_hash (fun l => String.mk l) emptyFile) ∈
       scan_for_new_files (fun l => String.mk l)
         (run_update demoSplit (fun l => String.mk l) 6 ⟨[], 0⟩ []
           [emptyFile]).cache [emptyFile]) :=
  ⟨⟨by decide, by decide, by decide, by decide⟩,
   cache_updated_only_on_retained demoSplit (fun l => String.mk l) 6 ⟨[], 0⟩ []
     [emptyFile] emptyFile (by decide) (by decide) (by decide) (by decide)⟩
